import Mathlib

/-!
Verification of the Bug Emporium backend core (src/backend/server.js):
the TTL cache (getCacheKey, getCachedData, setCachedData,
cachedGitlabApiCall), the linked-issue reference extraction
(extractLinkedIssueIds) and the linked-issue spider (spiderLinkedIssues),
and the batch project-name enrichment of the issues endpoint.

The JavaScript is embedded shallowly: machine state (the cache Map, the
shared visited Set) is passed explicitly, Date.now() is an explicit
argument, and every outbound GitLab call is modelled by the value it
delivers (an oracle), since a call through the cache wrapper returns the
same data as a direct call whenever it returns at all.

The recursion of spiderLinkedIssues is embedded with an explicit fuel
argument kept equal to maxDepth - depth; the fuel-exhausted branch
returns the same node-with-no-children result as the depth-bound guard
it coincides with, so the embedding computes exactly what the source
computes while remaining structurally recursive.
-/

namespace BugEmporium

/-- Values that appear in the query-parameter objects passed to
getCacheKey (strings, numbers and booleans). -/
inductive JVal where
  | str (s : String)
  | num (n : Int)
  | jbool (b : Bool)
deriving DecidableEq, Repr

/-- JSON.stringify rendering of one parameter value. -/
def JVal.render : JVal → String
  | .str s => "\"" ++ s ++ "\""
  | .num n => toString n
  | .jbool b => if b then "true" else "false"

/-- The key-sorted copy of the parameter object built by
Object.keys(params).sort().reduce((result, key) => ..., \x7b\x7d)
inside getCacheKey. -/
def sortedParams (params : List (String × JVal)) : List (String × JVal) :=
  ((params.map Prod.fst).insertionSort (fun a b => a ≤ b)).filterMap
    (fun k => (params.lookup k).map (fun v => (k, v)))

/-- JSON.stringify of the key-sorted parameter object. -/
def stringifyParams (params : List (String × JVal)) : String :=
  "\x7b" ++ String.intercalate ","
    ((sortedParams params).map (fun p => "\"" ++ p.1 ++ "\":" ++ p.2.render))
    ++ "\x7d"

/-- getCacheKey from server.js: the endpoint, a colon, and the key-sorted
JSON serialization of the parameter object. -/
def getCacheKey (endpoint : String) (params : List (String × JVal)) : String :=
  endpoint ++ ":" ++ stringifyParams params

/-- One entry of the cache Map: the payload stored by setCachedData
together with the write time and the ttl recorded with it. -/
structure CacheEntry (α : Type) where
  data : α
  timestamp : Nat
  ttl : Nat
deriving DecidableEq, Repr

/-- The cache Map, as its association list of key/entry pairs; keys are
unique in any state the program ever builds. -/
abbrev Cache (α : Type) := List (String × CacheEntry α)

/-- Map.get: the entry stored at a key, if any. -/
def cacheFind {α : Type} : Cache α → String → Option (CacheEntry α)
  | [], _ => none
  | (k', e) :: rest, k => if k' = k then some e else cacheFind rest k

/-- Map.set: overwrite the entry at a key in place, appending when the key
is new. -/
def cacheSet {α : Type} : Cache α → String → CacheEntry α → Cache α
  | [], k, e => [(k, e)]
  | (k', e') :: rest, k, e =>
      if k' = k then (k, e) :: rest else (k', e') :: cacheSet rest k e

/-- Map.delete: drop the entry at a key. -/
def cacheDelete {α : Type} : Cache α → String → Cache α
  | [], _ => []
  | (k', e') :: rest, k => if k' = k then rest else (k', e') :: cacheDelete rest k

/-- getCachedData from server.js: a hit iff an entry exists and
now - timestamp < ttl, where ttl is the argument of the lookup; an entry
that exists but fails the freshness test is deleted as a side effect.
Returns the value found (null is modelled as none) together with the
cache state after the lookup. -/
def getCachedData {α : Type} (cache : Cache α) (now : Nat) (key : String)
    (ttl : Nat) : Option α × Cache α :=
  match cacheFind cache key with
  | some cached =>
      if (now : Int) - (cached.timestamp : Int) < (ttl : Int) then
        (some cached.data, cache)
      else
        (none, cacheDelete cache key)
  | none => (none, cache)

/-- setCachedData from server.js: unconditionally store the data with the
current time and the given ttl. -/
def setCachedData {α : Type} (cache : Cache α) (now : Nat) (key : String)
    (data : α) (ttl : Nat) : Cache α :=
  cacheSet cache key ⟨data, now, ttl⟩

/-- cachedGitlabApiCall from server.js: build the cache key, try the
cache; on a hit return the cached data, on a miss perform the upstream
GET (modelled by the Except value it delivers), and cache and return its
data on success. A rejected upstream call propagates out of the function
before setCachedData runs. The pair returned is the call outcome and the
cache state afterwards. -/
def cachedGitlabApiCall {α : Type} (cache : Cache α) (now : Nat)
    (endpoint : String) (params : List (String × JVal)) (ttl : Nat)
    (upstream : Except String α) : Except String α × Cache α :=
  let cacheKey := getCacheKey ("gitlab:" ++ endpoint) params
  match getCachedData cache now cacheKey ttl with
  | (some cachedData, cache₁) => (.ok cachedData, cache₁)
  | (none, cache₁) =>
      match upstream with
      | .error e => (.error e, cache₁)
      | .ok d => (.ok d, setCachedData cache₁ now cacheKey d ttl)

/-- The fields of a GitLab issue object that the extraction and the
spider read: iid (unique only per project), project_id, description. -/
structure Issue where
  project_id : Nat
  iid : Nat
  description : String
deriving DecidableEq, Repr

/-- The upstream GitLab API as the spider sees it through
cachedGitlabApiCall: fetching /projects/p/issues/i and fetching
/projects/p/issues/i/notes either deliver data or fail. Notes are
modelled by their body strings, the only field read. -/
structure Env where
  fetchIssue : Nat → Nat → Except Unit Issue
  fetchNotes : Nat → Nat → Except Unit (List String)

/-- Set.add on a JavaScript Set kept as its insertion-ordered element
list: append the element unless it is already present. -/
def insertNew (l : List Nat) (x : Nat) : List Nat :=
  if x ∈ l then l else l ++ [x]

/-- Numeric value of a run of decimal digits, as parseInt produces for
the digit run captured by the regular expression. -/
def digitsToNat (ds : List Char) : Nat :=
  ds.foldl (fun acc c => acc * 10 + (c.toNat - 48)) 0

/-- Scanner for match(/#(\d+)/g) followed by parseInt on each match:
every occurrence of a hash mark followed by a maximal nonempty run of
digits yields the numeric value of that run, in text order. The fuel is
the number of characters left, which the scan consumes at least one of
per step, so the wrapper below never exhausts it. -/
def hashMatchesF : Nat → List Char → List Nat
  | 0, _ => []
  | _ + 1, [] => []
  | fuel + 1, c :: rest =>
      if c = '#' then
        match rest.takeWhile Char.isDigit with
        | [] => hashMatchesF fuel rest
        | ds => digitsToNat ds :: hashMatchesF fuel (rest.drop ds.length)
      else hashMatchesF fuel rest

/-- All hash-number reference tokens of one text, as parsed integers. -/
def hashMatches (s : String) : List Nat :=
  hashMatchesF s.data.length s.data

/-- The forEach body shared by the description pass and the notes pass of
extractLinkedIssueIds: each parsed id is added to the set when it is
truthy (nonzero) and differs from the issue's own iid. -/
def addIds (iid : Nat) (acc : List Nat) (ns : List Nat) : List Nat :=
  ns.foldl (fun acc' n => if n ≠ 0 ∧ n ≠ iid then insertNew acc' n else acc') acc

/-- The ids extracted from the description alone. -/
def descriptionLinkedIds (issue : Issue) : List Nat :=
  addIds issue.iid [] (hashMatches issue.description)

/-- extractLinkedIssueIds from server.js: collect hash-number references
from the description Set-first, then from every note body when the notes
fetch succeeds; a notes-fetch failure is caught and leaves the
description ids as the result. Array.from returns the set in insertion
order. -/
def extractLinkedIssueIds (env : Env) (issue : Issue) : List Nat :=
  let fromDesc := descriptionLinkedIds issue
  match env.fetchNotes issue.project_id issue.iid with
  | .ok notes =>
      notes.foldl (fun acc body => addIds issue.iid acc (hashMatches body)) fromDesc
  | .error _ => fromDesc

mutual
/-- The node shape returned by spiderLinkedIssues:
an issue and its spidered children, in discovery order. -/
inductive SpiderTree where
  | node (issue : Issue) (linkedIssues : SpiderForest)
deriving Repr

/-- A sequence of SpiderTree children (the linkedIssues array). -/
inductive SpiderForest where
  | nil
  | cons (t : SpiderTree) (ts : SpiderForest)
deriving Repr
end

/-- The issue at the root of a node. -/
def SpiderTree.issue : SpiderTree → Issue
  | .node i _ => i

/-- The children of a node. -/
def SpiderTree.linkedIssues : SpiderTree → SpiderForest
  | .node _ cs => cs

/-- The children of a node as a plain list. -/
def SpiderForest.toList : SpiderForest → List SpiderTree
  | .nil => []
  | .cons t ts => t :: ts.toList

mutual
/-- Every iid occurring in a tree, root first, in preorder. -/
def allIids : SpiderTree → List Nat
  | .node i cs => i.iid :: forestIids cs

/-- Every iid occurring in a forest, in preorder. -/
def forestIids : SpiderForest → List Nat
  | .nil => []
  | .cons t ts => allIids t ++ forestIids ts
end

mutual
/-- Every issue occurring in a tree, root first, in preorder. -/
def allIssues : SpiderTree → List Issue
  | .node i cs => i :: forestIssues cs

/-- Every issue occurring in a forest, in preorder. -/
def forestIssues : SpiderForest → List Issue
  | .nil => []
  | .cons t ts => allIssues t ++ forestIssues ts
end

mutual
/-- Length in edges of the longest root-to-leaf path of a tree. -/
def treeHeight : SpiderTree → Nat
  | .node _ cs => forestHeight cs

/-- One more than the largest height of a tree in the forest (zero for
the empty forest). -/
def forestHeight : SpiderForest → Nat
  | .nil => 0
  | .cons t ts => max (treeHeight t + 1) (forestHeight ts)
end

mutual
/-- No iid repeats along any root-to-leaf path: every node's iid is
absent from its own descendants, recursively. -/
def pathNodupT : SpiderTree → Prop
  | .node i cs => i.iid ∉ forestIids cs ∧ pathNodupF cs

/-- pathNodupT for every tree of a forest. -/
def pathNodupF : SpiderForest → Prop
  | .nil => True
  | .cons t ts => pathNodupT t ∧ pathNodupF ts
end

mutual
/-- Every non-root node's issue was delivered by fetching one of the ids
its parent references, from the parent issue's own project: the child
fetch inside spiderLinkedIssues uses the referencing issue's project_id. -/
def fetchedFromReferencing (env : Env) : SpiderTree → Prop
  | .node i cs => forestFetchedFrom env i cs

/-- fetchedFromReferencing for a forest of children of a given parent. -/
def forestFetchedFrom (env : Env) (parent : Issue) : SpiderForest → Prop
  | .nil => True
  | .cons t ts =>
      (∃ lid, lid ∈ extractLinkedIssueIds env parent ∧
          env.fetchIssue parent.project_id lid = .ok t.issue) ∧
      fetchedFromReferencing env t ∧ forestFetchedFrom env parent ts
end

/-- The for-of loop over linkedIds inside spiderLinkedIssues: skip the
root's iid and already-visited ids, fetch the rest from the referencing
issue's project (a fetch failure skips just that id), recurse via the
given continuation, and push the result; the shared visited set threads
left to right. -/
def spiderChildren (spider : Issue → List Nat → SpiderTree × List Nat)
    (env : Env) (projectId rootIssueId : Nat) :
    List Nat → List Nat → SpiderForest × List Nat
  | [], visited => (.nil, visited)
  | linkedId :: rest, visited =>
      if linkedId = rootIssueId ∨ linkedId ∈ visited then
        spiderChildren spider env projectId rootIssueId rest visited
      else
        match env.fetchIssue projectId linkedId with
        | .error _ => spiderChildren spider env projectId rootIssueId rest visited
        | .ok linkedIssue =>
            let st := spider linkedIssue visited
            let rst := spiderChildren spider env projectId rootIssueId rest st.2
            (.cons st.1 rst.1, rst.2)

/-- spiderLinkedIssues from server.js, with the shared visited Set and
the recursion depth explicit. The structural fuel is kept equal to
maxDepth - depth by every call, so the fuel-exhausted branch fires
exactly when the depth-bound guard would, and returns the same value the
guard returns; both give the issue with an empty children list. An
already-visited issue likewise returns with no children and no state
change. Otherwise the issue's iid joins the visited set and its
extracted references are expanded in order. -/
def spiderGo (env : Env) :
    Nat → Issue → List Nat → Nat → Nat → Nat → SpiderTree × List Nat
  | 0, issue, visited, _, _, _ => (.node issue .nil, visited)
  | fuel + 1, issue, visited, rootIssueId, depth, maxDepth =>
      if maxDepth ≤ depth ∨ issue.iid ∈ visited then (.node issue .nil, visited)
      else
        let visited₁ := visited ++ [issue.iid]
        let linkedIds := extractLinkedIssueIds env issue
        let res := spiderChildren
          (fun li vis => spiderGo env fuel li vis rootIssueId (depth + 1) maxDepth)
          env issue.project_id rootIssueId linkedIds visited₁
        (.node issue res.1, res.2)

/-- The exported entry point: spider a root issue with a fresh visited
set, rootIssueId set to the root's own iid, and depth zero. The source's
default depth bound is maxDepth = 5. -/
def spiderLinkedIssues (env : Env) (issue : Issue) (maxDepth : Nat) : SpiderTree :=
  (spiderGo env maxDepth issue [] issue.iid 0 maxDepth).1

/-- An oracle backed by a fixed issue table: fetching (p, i) finds the
issue with that project and iid, and every notes fetch delivers the
given table of note bodies (empty when absent). -/
def listEnv (issues : List Issue) (notes : List (Nat × List String)) : Env :=
  ⟨fun p i =>
      match issues.find? (fun iss => iss.project_id = p ∧ iss.iid = i) with
      | some iss => .ok iss
      | none => .error (),
   fun _ i =>
      match notes.lookup i with
      | some bodies => .ok bodies
      | none => .ok []⟩

/-- The fetchIssue oracle delivers issues under their own iid, as the
GitLab endpoint /projects/p/issues/i does. -/
def FetchConsistent (env : Env) : Prop :=
  ∀ p i iss, env.fetchIssue p i = .ok iss → iss.iid = i

/-- An issue row of the group issues list, as the project-name
enrichment of the /api/issues route sees it. -/
structure GroupIssue where
  iid : Nat
  project_id : Nat
deriving DecidableEq, Repr

/-- An issue row after the route attaches project_name. -/
structure EnrichedGroupIssue where
  iid : Nat
  project_id : Nat
  project_name : String
deriving DecidableEq, Repr

/-- The spread of new Set(allIssues.map(issue => issue.project_id)):
distinct project ids in first-occurrence order. -/
def uniqueProjectIds (issues : List GroupIssue) : List Nat :=
  (issues.map (fun iss => iss.project_id)).foldl insertNew []

/-- One projectPromises entry: the name delivered by the project lookup,
or the placeholder built in the catch branch when it fails. -/
def resolveProjectName (resolve : Nat → Except Unit String) (projectId : Nat) :
    String :=
  match resolve projectId with
  | .ok name => name
  | .error _ => "Project " ++ toString projectId

/-- The projectNames table: one resolution per distinct project id,
keyed by id. -/
def fetchProjectNames (resolve : Nat → Except Unit String)
    (issues : List GroupIssue) : List (Nat × String) :=
  (uniqueProjectIds issues).map (fun pid => (pid, resolveProjectName resolve pid))

/-- The join step: every issue gets project_name from the projectNames
table, with a second placeholder fallback for an id missing from it. -/
def enrichWithProjectNames (resolve : Nat → Except Unit String)
    (issues : List GroupIssue) : List EnrichedGroupIssue :=
  let projectNames := fetchProjectNames resolve issues
  issues.map (fun iss =>
    ⟨iss.iid, iss.project_id,
      match projectNames.lookup iss.project_id with
      | some name => name
      | none => "Project " ++ toString iss.project_id⟩)

/-! Association-list lemmas for the cache Map. -/

theorem cacheFind_eq_none_of_not_mem_keys {α : Type} (c : Cache α) (k : String)
    (h : k ∉ c.map Prod.fst) : cacheFind c k = none := by
  induction c with
  | nil => rfl
  | cons p rest ih =>
      obtain ⟨k', e'⟩ := p
      simp only [List.map_cons, List.mem_cons, not_or] at h
      have hne : k' ≠ k := fun hh => h.1 hh.symm
      simp only [cacheFind, if_neg hne]
      exact ih h.2

theorem cacheFind_cacheSet_self {α : Type} (c : Cache α) (k : String)
    (e : CacheEntry α) : cacheFind (cacheSet c k e) k = some e := by
  induction c with
  | nil => simp [cacheSet, cacheFind]
  | cons p rest ih =>
      obtain ⟨k', e'⟩ := p
      by_cases h : k' = k
      · simp [cacheSet, h, cacheFind]
      · simp [cacheSet, h, cacheFind, ih]

theorem cacheFind_cacheSet_other {α : Type} (c : Cache α) (k x : String)
    (e : CacheEntry α) (hx : x ≠ k) :
    cacheFind (cacheSet c k e) x = cacheFind c x := by
  induction c with
  | nil => simp [cacheSet, cacheFind, if_neg (Ne.symm hx)]
  | cons p rest ih =>
      obtain ⟨k', e'⟩ := p
      by_cases h : k' = k
      · subst h
        simp [cacheSet, cacheFind, if_neg (Ne.symm hx)]
      · simp only [cacheSet, if_neg h, cacheFind]
        by_cases hx' : k' = x
        · simp [hx']
        · simp [hx', ih]

theorem mem_keys_cacheSet {α : Type} (c : Cache α) (k x : String)
    (e : CacheEntry α) :
    x ∈ (cacheSet c k e).map Prod.fst ↔ x ∈ c.map Prod.fst ∨ x = k := by
  induction c with
  | nil => simp [cacheSet]
  | cons p rest ih =>
      obtain ⟨k', e'⟩ := p
      by_cases h : k' = k
      · subst h
        simp [cacheSet]
        tauto
      · simp [cacheSet, h, ih]
        tauto

theorem nodupKeys_cacheSet {α : Type} (c : Cache α) (k : String)
    (e : CacheEntry α) (h : (c.map Prod.fst).Nodup) :
    ((cacheSet c k e).map Prod.fst).Nodup := by
  induction c with
  | nil => simp [cacheSet]
  | cons p rest ih =>
      obtain ⟨k', e'⟩ := p
      simp only [List.map_cons, List.nodup_cons] at h
      by_cases hk : k' = k
      · subst hk
        simpa [cacheSet, List.nodup_cons] using h
      · simp only [cacheSet, if_neg hk, List.map_cons, List.nodup_cons]
        refine ⟨fun hmem => ?_, ih h.2⟩
        rcases (mem_keys_cacheSet rest k k' e).1 hmem with h' | h'
        · exact h.1 h'
        · exact hk h'

theorem cacheFind_cacheDelete_self {α : Type} (c : Cache α) (k : String)
    (h : (c.map Prod.fst).Nodup) : cacheFind (cacheDelete c k) k = none := by
  induction c with
  | nil => rfl
  | cons p rest ih =>
      obtain ⟨k', e'⟩ := p
      simp only [List.map_cons, List.nodup_cons] at h
      by_cases hk : k' = k
      · subst hk
        simp only [cacheDelete, if_pos rfl]
        exact cacheFind_eq_none_of_not_mem_keys rest k' h.1
      · simp only [cacheDelete, if_neg hk, cacheFind, if_neg hk]
        exact ih h.2

theorem cacheFind_cacheDelete_other {α : Type} (c : Cache α) (k x : String)
    (hx : x ≠ k) : cacheFind (cacheDelete c k) x = cacheFind c x := by
  induction c with
  | nil => rfl
  | cons p rest ih =>
      obtain ⟨k', e'⟩ := p
      by_cases hk : k' = k
      · subst hk
        simp [cacheDelete, cacheFind, if_neg (Ne.symm hx)]
      · simp only [cacheDelete, if_neg hk, cacheFind]
        by_cases hx' : k' = x
        · simp [hx']
        · simp [hx', ih]

/-- C5: after setCachedData writes a key at time t₀ with ttl T, a lookup
of that key at time t₁ with the same ttl returns the stored value while
the elapsed time is below T, and past T (inclusive) it returns none and
evicts the entry; moreover any hit anywhere returns data from an entry
whose age at the time of the lookup is below the ttl of the lookup. -/
theorem c5_get_after_set_respects_ttl {α : Type} (cache : Cache α)
    (key : String) (d : α) (t₀ t₁ T : Nat)
    (hnd : (cache.map Prod.fst).Nodup) (h01 : t₀ ≤ t₁) :
    (t₁ - t₀ < T →
      getCachedData (setCachedData cache t₀ key d T) t₁ key T
        = (some d, setCachedData cache t₀ key d T)) ∧
    (T ≤ t₁ - t₀ →
      (getCachedData (setCachedData cache t₀ key d T) t₁ key T).1 = none ∧
      cacheFind (getCachedData (setCachedData cache t₀ key d T) t₁ key T).2 key
        = none) ∧
    (∀ (c : Cache α) (now ttl : Nat) (v : α),
      (getCachedData c now key ttl).1 = some v →
      ∃ e, cacheFind c key = some e ∧ e.data = v ∧
        (now : Int) - (e.timestamp : Int) < (ttl : Int)) := by
  have hfind : cacheFind (setCachedData cache t₀ key d T) key = some ⟨d, t₀, T⟩ :=
    cacheFind_cacheSet_self cache key ⟨d, t₀, T⟩
  refine ⟨?_, ?_, ?_⟩
  · intro h
    have hc : (t₁ : Int) - (t₀ : Int) < (T : Int) := by omega
    simp only [getCachedData, hfind, if_pos hc]
  · intro h
    have hc : ¬((t₁ : Int) - (t₀ : Int) < (T : Int)) := by omega
    simp only [getCachedData, hfind, if_neg hc]
    exact ⟨by trivial, cacheFind_cacheDelete_self _ _ (nodupKeys_cacheSet _ _ _ hnd)⟩
  · intro c now ttl v h
    rcases hf : cacheFind c key with _ | e
    · simp [getCachedData, hf] at h
    · simp only [getCachedData, hf] at h
      by_cases hc : (now : Int) - (e.timestamp : Int) < (ttl : Int)
      · rw [if_pos hc] at h
        simp only [Option.some.injEq] at h
        exact ⟨e, rfl, h, hc⟩
      · rw [if_neg hc] at h
        simp at h

/-- Witness for c5_get_after_set_respects_ttl on a concrete store: a set
at time 0 with ttl 5 read back at time 3. -/
theorem c5_witness :
    getCachedData (setCachedData ([] : Cache String) 0 "k" "v" 5) 3 "k" 5
      = (some "v", setCachedData ([] : Cache String) 0 "k" "v" 5) :=
  (c5_get_after_set_respects_ttl ([] : Cache String) "k" "v" 0 3 5 (by decide)
    (by decide)).1 (by decide)

/-- Key lookups in an association list with distinct keys are invariant
under permutation of the list. -/
theorem lookup_eq_of_perm {β : Type} {l₁ l₂ : List (String × β)}
    (h : l₁.Perm l₂) :
    (l₁.map Prod.fst).Nodup → ∀ k, l₁.lookup k = l₂.lookup k := by
  induction h with
  | nil => intro _ k; rfl
  | cons x h ih =>
      intro nd k
      obtain ⟨a, b⟩ := x
      simp only [List.map_cons, List.nodup_cons] at nd
      simp only [List.lookup]
      cases hbeq : k == a
      · simpa [hbeq] using ih nd.2 k
      · simp [hbeq]
  | swap x y l =>
      intro nd k
      obtain ⟨a, b⟩ := x
      obtain ⟨a', b'⟩ := y
      simp only [List.map_cons, List.nodup_cons, List.mem_cons, not_or] at nd
      have hne : a' ≠ a := nd.1.1
      simp only [List.lookup]
      cases hbeq : k == a' <;> cases hbeq' : k == a <;> simp [hbeq, hbeq']
      exact absurd ((eq_of_beq hbeq').symm.trans (eq_of_beq hbeq)) (Ne.symm hne)
  | trans h₁ h₂ ih₁ ih₂ =>
      intro nd k
      have nd₂ := (h₁.map Prod.fst).nodup nd
      rw [ih₁ nd k, ih₂ nd₂ k]

/-- C6: getCacheKey is a function of the endpoint and the key-value
content of the parameter object: permuting the parameter object's keys,
which have no duplicates in a JavaScript object, leaves the key
unchanged. -/
theorem c6_cache_key_order_invariant (endpoint : String)
    (l₁ l₂ : List (String × JVal)) (hperm : l₁.Perm l₂)
    (hnd : (l₁.map Prod.fst).Nodup) :
    getCacheKey endpoint l₁ = getCacheKey endpoint l₂ := by
  have hkeys : (l₁.map Prod.fst).insertionSort (fun a b => a ≤ b)
      = (l₂.map Prod.fst).insertionSort (fun a b => a ≤ b) := by
    have hperm' :
        ((l₁.map Prod.fst).insertionSort (fun a b => a ≤ b)).Perm
          ((l₂.map Prod.fst).insertionSort (fun a b => a ≤ b)) :=
      ((List.perm_insertionSort _ _).trans (hperm.map Prod.fst)).trans
        (List.perm_insertionSort _ _).symm
    exact List.eq_of_perm_of_sorted hperm' (List.sorted_insertionSort _ _)
      (List.sorted_insertionSort _ _)
  have hlook : (fun k => (l₁.lookup k).map (fun v => (k, v)))
      = (fun k => (l₂.lookup k).map (fun v => (k, v))) := by
    funext k
    rw [lookup_eq_of_perm hperm hnd k]
  unfold getCacheKey stringifyParams sortedParams
  rw [hkeys, hlook]

/-- Witness for c6_cache_key_order_invariant: the two orderings of
\x7ba:1, b:2\x7d collide to one key. -/
theorem c6_witness :
    getCacheKey "/issues" [("b", .num 2), ("a", .num 1)]
      = getCacheKey "/issues" [("a", .num 1), ("b", .num 2)] :=
  c6_cache_key_order_invariant "/issues" _ _ (by decide) (by decide)

/-- A one-entry cache whose entry for the key of endpoint /x with no
parameters is already expired at time 10 under ttl 5. -/
def c7Cache : Cache String := [("gitlab:/x:\x7b\x7d", ⟨"old", 0, 5⟩)]

/-- C7 counterexample: on a cache miss caused by an expired entry, a
failing upstream call does change the cache state — getCachedData has
already evicted the stale entry before the upstream call fails — so "the
cache state is unchanged by the failed call" is false as stated. The
failure does propagate and nothing is written. -/
theorem c7_counterexample :
    (getCachedData c7Cache 10 (getCacheKey ("gitlab:" ++ "/x") []) 5).1 = none ∧
    cachedGitlabApiCall c7Cache 10 "/x" [] 5 (.error "down")
      = (.error "down", []) ∧
    ([] : Cache String) ≠ c7Cache := by
  refine ⟨by decide, by rfl, by decide⟩

/-- C7 amended: on a cache miss, a failing upstream call writes nothing:
afterwards the cache holds no entry at the computed key and every other
key is exactly as before (so the only state change a failed call can
cause is the read-time eviction of the already-expired entry at its own
key), and the failure propagates to the caller; a successful upstream
call stores its data at the key with the call's ttl and returns it. -/
theorem c7_amended_failure_not_cached {α : Type} (cache : Cache α) (now : Nat)
    (endpoint : String) (params : List (String × JVal)) (ttl : Nat)
    (hnd : (cache.map Prod.fst).Nodup)
    (hmiss : (getCachedData cache now
      (getCacheKey ("gitlab:" ++ endpoint) params) ttl).1 = none) :
    (∀ err : String,
      (cachedGitlabApiCall cache now endpoint params ttl (.error err)).1
        = .error err ∧
      cacheFind (cachedGitlabApiCall cache now endpoint params ttl (.error err)).2
        (getCacheKey ("gitlab:" ++ endpoint) params) = none ∧
      (∀ k, k ≠ getCacheKey ("gitlab:" ++ endpoint) params →
        cacheFind
          (cachedGitlabApiCall cache now endpoint params ttl (.error err)).2 k
          = cacheFind cache k)) ∧
    (∀ d : α,
      (cachedGitlabApiCall cache now endpoint params ttl (.ok d)).1 = .ok d ∧
      cacheFind (cachedGitlabApiCall cache now endpoint params ttl (.ok d)).2
        (getCacheKey ("gitlab:" ++ endpoint) params) = some ⟨d, now, ttl⟩) := by
  rcases hf : cacheFind cache (getCacheKey ("gitlab:" ++ endpoint) params)
    with _ | e
  · have hget : getCachedData cache now
        (getCacheKey ("gitlab:" ++ endpoint) params) ttl = (none, cache) := by
      simp [getCachedData, hf]
    refine ⟨fun err => ?_, fun d => ?_⟩
    · have h1 : cachedGitlabApiCall cache now endpoint params ttl (.error err)
          = (.error err, cache) := by
        simp [cachedGitlabApiCall, hget]
      rw [h1]
      exact ⟨rfl, hf, fun k hk => rfl⟩
    · have h2 : cachedGitlabApiCall cache now endpoint params ttl (.ok d)
          = (.ok d, cacheSet cache (getCacheKey ("gitlab:" ++ endpoint) params)
              ⟨d, now, ttl⟩) := by
        simp [cachedGitlabApiCall, hget, setCachedData]
      rw [h2]
      exact ⟨rfl, cacheFind_cacheSet_self _ _ _⟩
  · by_cases hc : (now : Int) - (e.timestamp : Int) < (ttl : Int)
    · exfalso
      simp [getCachedData, hf, if_pos hc] at hmiss
    · have hget : getCachedData cache now
          (getCacheKey ("gitlab:" ++ endpoint) params) ttl
          = (none, cacheDelete cache
              (getCacheKey ("gitlab:" ++ endpoint) params)) := by
        simp [getCachedData, hf, if_neg hc]
      refine ⟨fun err => ?_, fun d => ?_⟩
      · have h1 : cachedGitlabApiCall cache now endpoint params ttl (.error err)
            = (.error err, cacheDelete cache
                (getCacheKey ("gitlab:" ++ endpoint) params)) := by
          simp [cachedGitlabApiCall, hget]
        rw [h1]
        exact ⟨rfl, cacheFind_cacheDelete_self _ _ hnd,
          fun k hk => cacheFind_cacheDelete_other _ _ _ hk⟩
      · have h2 : cachedGitlabApiCall cache now endpoint params ttl (.ok d)
            = (.ok d, cacheSet
                (cacheDelete cache (getCacheKey ("gitlab:" ++ endpoint) params))
                (getCacheKey ("gitlab:" ++ endpoint) params) ⟨d, now, ttl⟩) := by
          simp [cachedGitlabApiCall, hget, setCachedData]
        rw [h2]
        exact ⟨rfl, cacheFind_cacheSet_self _ _ _⟩

/-- Witness for c7_amended_failure_not_cached: an empty cache missing,
the upstream failing, nothing written. -/
theorem c7_witness :
    (cachedGitlabApiCall ([] : Cache String) 10 "/x" [] 5 (.error "down")).1
      = .error "down" ∧
    cacheFind
      (cachedGitlabApiCall ([] : Cache String) 10 "/x" [] 5 (.error "down")).2
      (getCacheKey ("gitlab:" ++ "/x") []) = none :=
  ⟨((c7_amended_failure_not_cached ([] : Cache String) 10 "/x" [] 5 (by decide)
      (by decide)).1 "down").1,
   ((c7_amended_failure_not_cached ([] : Cache String) 10 "/x" [] 5 (by decide)
      (by decide)).1 "down").2.1⟩

/-! Lemmas about the Set-insertion order of reference extraction. -/

theorem mem_insertNew (l : List Nat) (x y : Nat) :
    y ∈ insertNew l x ↔ y ∈ l ∨ y = x := by
  by_cases h : x ∈ l
  · simp only [insertNew, if_pos h]
    constructor
    · exact Or.inl
    · rintro (hy | rfl)
      · exact hy
      · exact h
  · simp [insertNew, if_neg h]

theorem nodup_insertNew (l : List Nat) (x : Nat) (h : l.Nodup) :
    (insertNew l x).Nodup := by
  by_cases hx : x ∈ l
  · simpa [insertNew, if_pos hx] using h
  · rw [insertNew, if_neg hx]
    simp [List.nodup_append, h, hx]

theorem mem_addIds (iid x : Nat) :
    ∀ (ns acc : List Nat),
      x ∈ addIds iid acc ns ↔ x ∈ acc ∨ (x ∈ ns ∧ x ≠ 0 ∧ x ≠ iid) := by
  intro ns
  induction ns with
  | nil => intro acc; simp [addIds]
  | cons n ns ih =>
      intro acc
      have hstep : addIds iid acc (n :: ns)
          = addIds iid (if n ≠ 0 ∧ n ≠ iid then insertNew acc n else acc) ns := by
        simp [addIds]
      rw [hstep, ih]
      by_cases hn : n ≠ 0 ∧ n ≠ iid
      · rw [if_pos hn, mem_insertNew]
        constructor
        · rintro ((hy | rfl) | hy)
          · exact Or.inl hy
          · exact Or.inr ⟨List.mem_cons_self _ _, hn⟩
          · exact Or.inr ⟨List.mem_cons_of_mem _ hy.1, hy.2⟩
        · rintro (hy | ⟨hmem, hx⟩)
          · exact Or.inl (Or.inl hy)
          · rcases List.mem_cons.1 hmem with rfl | hy
            · exact Or.inl (Or.inr rfl)
            · exact Or.inr ⟨hy, hx⟩
      · rw [if_neg hn]
        constructor
        · rintro (hy | hy)
          · exact Or.inl hy
          · exact Or.inr ⟨List.mem_cons_of_mem _ hy.1, hy.2⟩
        · rintro (hy | ⟨hmem, hx⟩)
          · exact Or.inl hy
          · rcases List.mem_cons.1 hmem with rfl | hy
            · exact absurd hx hn
            · exact Or.inr ⟨hy, hx⟩

theorem nodup_addIds (iid : Nat) :
    ∀ (ns acc : List Nat), acc.Nodup → (addIds iid acc ns).Nodup := by
  intro ns
  induction ns with
  | nil => intro acc h; simpa [addIds] using h
  | cons n ns ih =>
      intro acc h
      have hstep : addIds iid acc (n :: ns)
          = addIds iid (if n ≠ 0 ∧ n ≠ iid then insertNew acc n else acc) ns := by
        simp [addIds]
      rw [hstep]
      by_cases hn : n ≠ 0 ∧ n ≠ iid
      · rw [if_pos hn]
        exact ih _ (nodup_insertNew _ _ h)
      · rw [if_neg hn]
        exact ih _ h

theorem mem_notesFold (iid x : Nat) :
    ∀ (bodies : List String) (acc : List Nat),
      x ∈ bodies.foldl (fun acc' body => addIds iid acc' (hashMatches body)) acc
        ↔ x ∈ acc ∨
          ((∃ body ∈ bodies, x ∈ hashMatches body) ∧ x ≠ 0 ∧ x ≠ iid) := by
  intro bodies
  induction bodies with
  | nil => intro acc; simp
  | cons b bodies ih =>
      intro acc
      rw [List.foldl_cons, ih, mem_addIds]
      constructor
      · rintro ((hy | ⟨hm, hx⟩) | ⟨⟨body, hb, hm⟩, hx⟩)
        · exact Or.inl hy
        · exact Or.inr ⟨⟨b, List.mem_cons_self _ _, hm⟩, hx⟩
        · exact Or.inr ⟨⟨body, List.mem_cons_of_mem _ hb, hm⟩, hx⟩
      · rintro (hy | ⟨⟨body, hb, hm⟩, hx⟩)
        · exact Or.inl (Or.inl hy)
        · rcases List.mem_cons.1 hb with rfl | hb
          · exact Or.inl (Or.inr ⟨hm, hx⟩)
          · exact Or.inr ⟨⟨body, hb, hm⟩, hx⟩

theorem nodup_notesFold (iid : Nat) :
    ∀ (bodies : List String) (acc : List Nat), acc.Nodup →
      (bodies.foldl (fun acc' body => addIds iid acc' (hashMatches body)) acc).Nodup := by
  intro bodies
  induction bodies with
  | nil => intro acc h; simpa using h
  | cons b bodies ih =>
      intro acc h
      rw [List.foldl_cons]
      exact ih _ (nodup_addIds _ _ _ h)

/-- The reference set as claim C4 words it, for comparison with the
code: every integer parsed from a hash-digits token occurring in the
description or in any note body, keeping each id at most once and
excluding only ids equal to the issue's own iid (every such token
parses, so the cannot-be-parsed exclusion adds nothing). -/
def c4ClaimedIds (issue : Issue) (notes : List String) : List Nat :=
  ((hashMatches issue.description ++ notes.flatMap hashMatches).filter
    (fun n => n ≠ issue.iid)).dedup

/-- C4 counterexample: a description containing the token hash-zero.
Zero parses and differs from the issue's iid, so the claim's id set
contains 0, but the code's truthiness test (if (id && ...)) silently
drops the parsed id 0; the two sets differ. -/
theorem c4_counterexample :
    0 ∈ c4ClaimedIds ⟨1, 1, "see #0"⟩ [] ∧
    0 ∉ extractLinkedIssueIds (listEnv [] []) ⟨1, 1, "see #0"⟩ := by
  refine ⟨by decide, by decide⟩

/-- C4 amended: extractLinkedIssueIds returns each id at most once, and
its members are exactly the integers parsed from hash-digits tokens of
the description, or of any note body when the notes fetch succeeds,
excluding ids equal to the issue's own iid and also ids equal to zero
(dropped by the code's truthiness test). -/
theorem c4_amended_extracted_ids (env : Env) (issue : Issue) :
    (∀ x, x ∈ extractLinkedIssueIds env issue ↔
      (x ≠ 0 ∧ x ≠ issue.iid ∧
        (x ∈ hashMatches issue.description ∨
          ∃ notes, env.fetchNotes issue.project_id issue.iid = .ok notes ∧
            ∃ body ∈ notes, x ∈ hashMatches body))) ∧
    (extractLinkedIssueIds env issue).Nodup := by
  constructor
  · intro x
    rcases hn : env.fetchNotes issue.project_id issue.iid with _ | notes
    · simp only [extractLinkedIssueIds, descriptionLinkedIds, hn]
      rw [mem_addIds]
      constructor
      · rintro (hy | ⟨hm, hx0, hxi⟩)
        · simp at hy
        · exact ⟨hx0, hxi, Or.inl hm⟩
      · rintro ⟨hx0, hxi, hm | ⟨notes, hnn, hb⟩⟩
        · exact Or.inr ⟨hm, hx0, hxi⟩
        · exact Except.noConfusion hnn
    · simp only [extractLinkedIssueIds, descriptionLinkedIds, hn]
      rw [mem_notesFold, mem_addIds]
      constructor
      · rintro ((hy | ⟨hm, hx0, hxi⟩) | ⟨⟨body, hb, hm⟩, hx0, hxi⟩)
        · simp at hy
        · exact ⟨hx0, hxi, Or.inl hm⟩
        · exact ⟨hx0, hxi, Or.inr ⟨notes, rfl, body, hb, hm⟩⟩
      · rintro ⟨hx0, hxi, hm | ⟨notes', hnn, body, hb, hm⟩⟩
        · exact Or.inl (Or.inr ⟨hm, hx0, hxi⟩)
        · cases hnn
          exact Or.inr ⟨⟨body, hb, hm⟩, hx0, hxi⟩
  · rcases hn : env.fetchNotes issue.project_id issue.iid with _ | notes
    · simp only [extractLinkedIssueIds, descriptionLinkedIds, hn]
      exact nodup_addIds _ _ _ List.nodup_nil
    · simp only [extractLinkedIssueIds, descriptionLinkedIds, hn]
      exact nodup_notesFold _ _ _ (nodup_addIds _ _ _ List.nodup_nil)

/-- Witness for c4_amended_extracted_ids: the characterization applied
to a concrete issue referencing number 5. -/
theorem c4_witness :
    5 ∈ extractLinkedIssueIds (listEnv [] []) ⟨1, 1, "see #5"⟩ :=
  ((c4_amended_extracted_ids (listEnv [] []) ⟨1, 1, "see #5"⟩).1 5).mpr
    ⟨by decide, by decide, Or.inl (by decide)⟩

theorem mem_foldl_insertNew (x : Nat) :
    ∀ (l acc : List Nat), x ∈ l.foldl insertNew acc ↔ x ∈ acc ∨ x ∈ l := by
  intro l
  induction l with
  | nil => intro acc; simp
  | cons n l ih =>
      intro acc
      rw [List.foldl_cons, ih, mem_insertNew]
      constructor
      · rintro ((hy | rfl) | hy)
        · exact Or.inl hy
        · exact Or.inr (List.mem_cons_self _ _)
        · exact Or.inr (List.mem_cons_of_mem _ hy)
      · rintro (hy | hy)
        · exact Or.inl (Or.inl hy)
        · rcases List.mem_cons.1 hy with rfl | hy
          · exact Or.inl (Or.inr rfl)
          · exact Or.inr hy

theorem lookup_map_pair (f : Nat → String) (pid : Nat) :
    ∀ ids : List Nat, pid ∈ ids →
      (ids.map (fun p => (p, f p))).lookup pid = some (f pid) := by
  intro ids
  induction ids with
  | nil => intro h; cases h
  | cons q ids ih =>
      intro h
      simp only [List.map_cons, List.lookup]
      by_cases hq : pid = q
      · subst hq
        simp
      · have hbeq : (pid == q) = false := by
          simpa using hq
        simp only [hbeq]
        rcases List.mem_cons.1 h with rfl | h
        · exact absurd rfl hq
        · exact ih h

/-- C9: the batch project-name enrichment resolves one name per distinct
project id and joins names back by id, so every issue — duplicates
included — comes out annotated with the name its own project id resolves
to, which is the fetched name on success and the placeholder
"Project <id>" on failure; the list [5, 7, 5, 9] makes exactly 3
resolution calls, and a resolver failing only on 7 gives the issues with
id 7 the placeholder while ids 5 and 9 keep their real names. -/
theorem c9_batch_project_enrichment :
    (∀ (resolve : Nat → Except Unit String) (issues : List GroupIssue),
      enrichWithProjectNames resolve issues
        = issues.map (fun iss =>
            ⟨iss.iid, iss.project_id, resolveProjectName resolve iss.project_id⟩)) ∧
    (uniqueProjectIds [⟨1, 5⟩, ⟨2, 7⟩, ⟨3, 5⟩, ⟨4, 9⟩]).length = 3 ∧
    enrichWithProjectNames
      (fun pid => if pid = 5 then .ok "Alpha" else
        if pid = 9 then .ok "Gamma" else .error ())
      [⟨1, 5⟩, ⟨2, 7⟩, ⟨3, 5⟩, ⟨4, 9⟩]
      = [⟨1, 5, "Alpha"⟩, ⟨2, 7, "Project 7"⟩, ⟨3, 5, "Alpha"⟩,
         ⟨4, 9, "Gamma"⟩] := by
  refine ⟨?_, by decide, by decide⟩
  intro resolve issues
  unfold enrichWithProjectNames
  apply List.map_congr_left
  intro iss hmem
  have hpid : iss.project_id ∈ uniqueProjectIds issues := by
    rw [uniqueProjectIds, mem_foldl_insertNew]
    exact Or.inr (List.mem_map_of_mem _ hmem)
  rw [fetchProjectNames, lookup_map_pair _ _ _ hpid]

/-! Height bound of the spider. -/

theorem spiderChildren_height (f : Issue → List Nat → SpiderTree × List Nat)
    (env : Env) (proj root k : Nat)
    (hf : ∀ li vis, treeHeight (f li vis).1 ≤ k) :
    ∀ (ids visited : List Nat),
      forestHeight (spiderChildren f env proj root ids visited).1 ≤ k + 1 := by
  intro ids
  induction ids with
  | nil =>
      intro visited
      simp [spiderChildren, forestHeight]
  | cons linkedId rest ih =>
      intro visited
      by_cases hskip : linkedId = root ∨ linkedId ∈ visited
      · simp only [spiderChildren, if_pos hskip]
        exact ih visited
      · rcases hfetch : env.fetchIssue proj linkedId with _ | li
        · simp only [spiderChildren, if_neg hskip, hfetch]
          exact ih visited
        · simp only [spiderChildren, if_neg hskip, hfetch, forestHeight]
          exact max_le (Nat.succ_le_succ (hf li visited)) (ih _)

theorem spiderGo_height (env : Env) :
    ∀ (fuel : Nat) (issue : Issue) (visited : List Nat)
      (root depth maxDepth : Nat),
      treeHeight (spiderGo env fuel issue visited root depth maxDepth).1
        ≤ maxDepth - depth := by
  intro fuel
  induction fuel with
  | zero =>
      intro issue visited root depth maxDepth
      simp [spiderGo, treeHeight, forestHeight]
  | succ fuel ih =>
      intro issue visited root depth maxDepth
      by_cases hguard : maxDepth ≤ depth ∨ issue.iid ∈ visited
      · simp [spiderGo, if_pos hguard, treeHeight, forestHeight]
      · have hd : depth < maxDepth := by
          rcases not_or.1 hguard with ⟨h1, _⟩
          omega
        simp only [spiderGo, if_neg hguard, treeHeight]
        have hch := spiderChildren_height
          (fun li vis => spiderGo env fuel li vis root (depth + 1) maxDepth)
          env issue.project_id root (maxDepth - (depth + 1))
          (fun li vis => ih li vis root (depth + 1) maxDepth)
          (extractLinkedIssueIds env issue) (visited ++ [issue.iid])
        omega

/-- The ten-issue reference chain of the spec: issue n references issue
n + 1, ten issues deep, with the last issue referencing yet another. -/
def chainEnv : Env := listEnv
  [⟨1, 1, "ref #2"⟩, ⟨1, 2, "ref #3"⟩, ⟨1, 3, "ref #4"⟩, ⟨1, 4, "ref #5"⟩,
   ⟨1, 5, "ref #6"⟩, ⟨1, 6, "ref #7"⟩, ⟨1, 7, "ref #8"⟩, ⟨1, 8, "ref #9"⟩,
   ⟨1, 9, "ref #10"⟩, ⟨1, 10, "ref #11"⟩] []

/-- C3: a spider call at depth at or past maxDepth returns the issue
itself with an empty children list and leaves the visited set untouched
(so the node's own references are not explored); every returned tree is
at most maxDepth levels deep; and the ten-deep chain spidered with
maxDepth 5 yields exactly the five-level tree whose level-5 node has no
children although its body references issue 7. -/
theorem c3_depth_bound_cuts_children :
    (∀ (env : Env) (fuel : Nat) (issue : Issue) (visited : List Nat)
        (root depth maxDepth : Nat), maxDepth ≤ depth →
      spiderGo env fuel issue visited root depth maxDepth
        = (.node issue .nil, visited)) ∧
    (∀ (env : Env) (issue : Issue) (maxDepth : Nat),
      treeHeight (spiderLinkedIssues env issue maxDepth) ≤ maxDepth) ∧
    spiderLinkedIssues chainEnv ⟨1, 1, "ref #2"⟩ 5
      = .node ⟨1, 1, "ref #2"⟩
          (.cons (.node ⟨1, 2, "ref #3"⟩
            (.cons (.node ⟨1, 3, "ref #4"⟩
              (.cons (.node ⟨1, 4, "ref #5"⟩
                (.cons (.node ⟨1, 5, "ref #6"⟩
                  (.cons (.node ⟨1, 6, "ref #7"⟩ .nil) .nil)) .nil)) .nil))
              .nil)) .nil) ∧
    treeHeight (spiderLinkedIssues chainEnv ⟨1, 1, "ref #2"⟩ 5) = 5 := by
  refine ⟨?_, ?_, by rfl, by rfl⟩
  · intro env fuel issue visited root depth maxDepth h
    cases fuel with
    | zero => rfl
    | succ fuel => simp [spiderGo, if_pos (Or.inl h)]
  · intro env issue maxDepth
    have := spiderGo_height env maxDepth issue [] issue.iid 0 maxDepth
    simpa [spiderLinkedIssues] using this

/-- Witness for c3_depth_bound_cuts_children: a call already at depth 7
with bound 5 returns its issue with no children. -/
theorem c3_witness :
    spiderGo (listEnv [] []) 3 ⟨1, 1, "x"⟩ [] 1 7 5
      = (.node ⟨1, 1, "x"⟩ .nil, []) :=
  c3_depth_bound_cuts_children.1 (listEnv [] []) 3 ⟨1, 1, "x"⟩ [] 1 7 5
    (by decide)

/-! Path distinctness of the spider, via the shared visited set. -/

theorem allIids_eq (t : SpiderTree) :
    allIids t = t.issue.iid :: forestIids t.linkedIssues := by
  cases t
  rfl

theorem spiderChildren_pathNodup (f : Issue → List Nat → SpiderTree × List Nat)
    (env : Env) (proj root : Nat) (hc : FetchConsistent env)
    (hf : ∀ li vis, (f li vis).1.issue = li ∧
        (∀ x, x ∈ forestIids (f li vis).1.linkedIssues → x ∉ vis ∧ x ≠ root) ∧
        pathNodupT (f li vis).1 ∧
        vis ⊆ (f li vis).2) :
    ∀ (ids visited : List Nat),
      (∀ x, x ∈ forestIids (spiderChildren f env proj root ids visited).1 →
        x ∉ visited ∧ x ≠ root) ∧
      pathNodupF (spiderChildren f env proj root ids visited).1 ∧
      visited ⊆ (spiderChildren f env proj root ids visited).2 := by
  intro ids
  induction ids with
  | nil =>
      intro visited
      refine ⟨?_, trivial, fun x hx => hx⟩
      intro x hx
      simp [spiderChildren, forestIids] at hx
  | cons linkedId rest ih =>
      intro visited
      by_cases hskip : linkedId = root ∨ linkedId ∈ visited
      · simpa only [spiderChildren, if_pos hskip] using ih visited
      · have hroot : linkedId ≠ root := fun h => hskip (Or.inl h)
        have hvis : linkedId ∉ visited := fun h => hskip (Or.inr h)
        rcases hfetch : env.fetchIssue proj linkedId with _ | li
        · simpa only [spiderChildren, if_neg hskip, hfetch] using ih visited
        · have hli : li.iid = linkedId := hc proj linkedId li hfetch
          obtain ⟨ht_issue, ht_desc, ht_nodup, hsub₁⟩ := hf li visited
          obtain ⟨hrest_desc, hrest_nodup, hsub₂⟩ := ih (f li visited).2
          simp only [spiderChildren, if_neg hskip, hfetch]
          refine ⟨?_, ⟨ht_nodup, hrest_nodup⟩, fun x hx => hsub₂ (hsub₁ hx)⟩
          intro x hx
          simp only [forestIids, List.mem_append] at hx
          rcases hx with hx | hx
          · rw [allIids_eq, List.mem_cons, ht_issue] at hx
            rcases hx with rfl | hx
            · rw [hli]
              exact ⟨hvis, hroot⟩
            · exact ht_desc x hx
          · obtain ⟨hnv, hnr⟩ := hrest_desc x hx
            exact ⟨fun hmem => hnv (hsub₁ hmem), hnr⟩

theorem spiderGo_pathNodup (env : Env) (hc : FetchConsistent env)
    (root maxDepth : Nat) :
    ∀ (fuel : Nat) (issue : Issue) (visited : List Nat) (depth : Nat),
      (spiderGo env fuel issue visited root depth maxDepth).1.issue = issue ∧
      (∀ x, x ∈ forestIids
          (spiderGo env fuel issue visited root depth maxDepth).1.linkedIssues →
        x ∉ visited ∧ x ≠ root) ∧
      pathNodupT (spiderGo env fuel issue visited root depth maxDepth).1 ∧
      visited ⊆ (spiderGo env fuel issue visited root depth maxDepth).2 := by
  intro fuel
  induction fuel with
  | zero =>
      intro issue visited depth
      exact ⟨rfl, fun x hx => absurd hx (by simp [SpiderTree.linkedIssues, forestIids]),
        ⟨by simp [forestIids], trivial⟩, fun x hx => hx⟩
  | succ fuel ih =>
      intro issue visited depth
      by_cases hguard : maxDepth ≤ depth ∨ issue.iid ∈ visited
      · simp only [spiderGo, if_pos hguard]
        exact ⟨rfl, fun x hx => absurd hx (by simp [SpiderTree.linkedIssues, forestIids]),
          ⟨by simp [forestIids], trivial⟩, fun x hx => hx⟩
      · simp only [spiderGo, if_neg hguard]
        have hch := spiderChildren_pathNodup
          (fun li vis => spiderGo env fuel li vis root (depth + 1) maxDepth)
          env issue.project_id root hc
          (fun li vis => ih li vis (depth + 1))
          (extractLinkedIssueIds env issue) (visited ++ [issue.iid])
        obtain ⟨hdesc, hnodup, hsub⟩ := hch
        refine ⟨rfl, ?_, ?_, ?_⟩
        · intro x hx
          obtain ⟨hnv, hnr⟩ := hdesc x hx
          exact ⟨fun hmem => hnv (List.mem_append_left _ hmem), hnr⟩
        · refine ⟨fun hmem => ?_, hnodup⟩
          exact (hdesc issue.iid hmem).1 (List.mem_append_right _ (by simp))
        · exact fun x hx => hsub (List.mem_append_left _ hx)

/-- The two-issue cycle of the spec: issue 1 references issue 2 and
issue 2 references issue 1 back. -/
def cyc2Env : Env := listEnv [⟨1, 1, "see #2"⟩, ⟨1, 2, "see #1"⟩] []

/-- An issue whose description references only itself. -/
def selfRefEnv : Env := listEnv [⟨1, 4, "dup of #4"⟩] []

/-- C2: for a consistent fetch oracle, no iid repeats on any root-to-leaf
path of a spidered tree, the tree's root is the requested issue, and the
root's iid never occurs among its descendants; concretely, an issue
referencing only itself spiders to a childless root, and the two-cycle
1 -> 2 -> 1 spiders to 1 with sole child 2 whose children are empty. -/
theorem c2_no_iid_repeats_on_paths :
    (∀ (env : Env), FetchConsistent env → ∀ (issue : Issue) (maxDepth : Nat),
      (spiderLinkedIssues env issue maxDepth).issue = issue ∧
      pathNodupT (spiderLinkedIssues env issue maxDepth) ∧
      (issue.iid ∉
        forestIids (spiderLinkedIssues env issue maxDepth).linkedIssues)) ∧
    spiderLinkedIssues selfRefEnv ⟨1, 4, "dup of #4"⟩ 5
      = .node ⟨1, 4, "dup of #4"⟩ .nil ∧
    spiderLinkedIssues cyc2Env ⟨1, 1, "see #2"⟩ 5
      = .node ⟨1, 1, "see #2"⟩
          (.cons (.node ⟨1, 2, "see #1"⟩ .nil) .nil) := by
  refine ⟨?_, by rfl, by rfl⟩
  intro env hc issue maxDepth
  obtain ⟨hissue, hdesc, hnodup, _⟩ :=
    spiderGo_pathNodup env hc issue.iid maxDepth maxDepth issue [] 0
  exact ⟨hissue, hnodup, fun hmem => (hdesc issue.iid hmem).2 rfl⟩

/-- listEnv oracles deliver issues under their own iid. -/
theorem listEnv_consistent (issues : List Issue)
    (notes : List (Nat × List String)) : FetchConsistent (listEnv issues notes) := by
  intro p i iss h
  simp only [listEnv] at h
  rcases hf : issues.find? (fun x => x.project_id = p ∧ x.iid = i) with _ | found
  · rw [hf] at h
    cases h
  · rw [hf] at h
    cases h
    have := List.find?_some hf
    simp only [decide_eq_true_eq] at this
    exact this.2

/-- Witness for c2_no_iid_repeats_on_paths: the general part applied to
the two-cycle oracle. -/
theorem c2_witness :
    pathNodupT (spiderLinkedIssues cyc2Env ⟨1, 1, "see #2"⟩ 5) :=
  ((c2_no_iid_repeats_on_paths.1 cyc2Env (listEnv_consistent _ _)
    ⟨1, 1, "see #2"⟩ 5).2).1

/-! Preorder bookkeeping of the shared visited set, below the depth
bound: the visited list returned by a spider call is the input list
followed by exactly the preorder iids of the tree it built. -/

theorem spiderChildren_preorder (f : Issue → List Nat → SpiderTree × List Nat)
    (env : Env) (proj root : Nat) (U : Finset Nat) (maxDepth depth : Nat)
    (hc : FetchConsistent env)
    (hu : ∀ p i iss, env.fetchIssue p i = .ok iss → i ∈ U)
    (hf : ∀ li vis, li.iid ∈ U → li.iid ∉ vis →
      (depth + 1) + (U \ vis.toFinset).card ≤ maxDepth →
      (f li vis).2 = vis ++ allIids (f li vis).1 ∧
      (allIids (f li vis).1).Nodup ∧
      (∀ x, x ∈ allIids (f li vis).1 → x ∉ vis ∧ x ∈ U)) :
    ∀ (ids vis : List Nat),
      (depth + 1) + (U \ vis.toFinset).card ≤ maxDepth →
      (spiderChildren f env proj root ids vis).2
        = vis ++ forestIids (spiderChildren f env proj root ids vis).1 ∧
      (forestIids (spiderChildren f env proj root ids vis).1).Nodup ∧
      (∀ x, x ∈ forestIids (spiderChildren f env proj root ids vis).1 →
        x ∉ vis ∧ x ∈ U) := by
  intro ids
  induction ids with
  | nil =>
      intro vis hcard
      refine ⟨by simp [spiderChildren, forestIids], by simp [spiderChildren, forestIids], ?_⟩
      intro x hx
      simp [spiderChildren, forestIids] at hx
  | cons linkedId rest ih =>
      intro vis hcard
      by_cases hskip : linkedId = root ∨ linkedId ∈ vis
      · simpa only [spiderChildren, if_pos hskip] using ih vis hcard
      · have hnv : linkedId ∉ vis := fun h => hskip (Or.inr h)
        rcases hfetch : env.fetchIssue proj linkedId with _ | li
        · simpa only [spiderChildren, if_neg hskip, hfetch] using ih vis hcard
        · have hli : li.iid = linkedId := hc proj linkedId li hfetch
          have hliU : li.iid ∈ U := by
            rw [hli]
            exact hu proj linkedId li hfetch
          obtain ⟨h1, h2, h3⟩ := hf li vis hliU (hli ▸ hnv) hcard
          have hsubvis : vis.toFinset ⊆ (f li vis).2.toFinset := by
            rw [h1, List.toFinset_append]
            exact Finset.subset_union_left
          have hcard₂ : (depth + 1) + (U \ (f li vis).2.toFinset).card ≤ maxDepth := by
            have hsd : U \ (f li vis).2.toFinset ⊆ U \ vis.toFinset :=
              Finset.sdiff_subset_sdiff (Finset.Subset.refl U) hsubvis
            have := Finset.card_le_card hsd
            omega
          obtain ⟨r1, r2, r3⟩ := ih (f li vis).2 hcard₂
          simp only [spiderChildren, if_neg hskip, hfetch, forestIids]
          refine ⟨?_, ?_, ?_⟩
          · rw [r1, h1, List.append_assoc]
          · refine List.Nodup.append h2 r2 ?_
            intro a ha har
            have : a ∉ (f li vis).2 := (r3 a har).1
            rw [h1] at this
            exact this (List.mem_append_right _ ha)
          · intro x hx
            rcases List.mem_append.1 hx with hx | hx
            · exact h3 x hx
            · obtain ⟨hxv, hxU⟩ := r3 x hx
              refine ⟨fun hmem => ?_, hxU⟩
              rw [h1] at hxv
              exact hxv (List.mem_append_left _ hmem)

theorem spiderGo_preorder (env : Env) (hc : FetchConsistent env)
    (U : Finset Nat) (hu : ∀ p i iss, env.fetchIssue p i = .ok iss → i ∈ U)
    (root maxDepth : Nat) :
    ∀ (fuel : Nat) (issue : Issue) (visited : List Nat) (depth : Nat),
      issue.iid ∈ U → issue.iid ∉ visited →
      depth + (U \ visited.toFinset).card ≤ maxDepth →
      maxDepth ≤ depth + fuel →
      (spiderGo env fuel issue visited root depth maxDepth).2
        = visited
          ++ allIids (spiderGo env fuel issue visited root depth maxDepth).1 ∧
      (allIids (spiderGo env fuel issue visited root depth maxDepth).1).Nodup ∧
      (∀ x, x ∈ allIids (spiderGo env fuel issue visited root depth maxDepth).1 →
        x ∉ visited ∧ x ∈ U) := by
  intro fuel
  induction fuel with
  | zero =>
      intro issue visited depth hU hnv hcard hfuel
      exfalso
      have hne : (U \ visited.toFinset).Nonempty :=
        ⟨issue.iid, Finset.mem_sdiff.2 ⟨hU, fun h => hnv (List.mem_toFinset.1 h)⟩⟩
      have := Finset.card_pos.2 hne
      omega
  | succ fuel ih =>
      intro issue visited depth hU hnv hcard hfuel
      have hne : (U \ visited.toFinset).Nonempty :=
        ⟨issue.iid, Finset.mem_sdiff.2 ⟨hU, fun h => hnv (List.mem_toFinset.1 h)⟩⟩
      have hpos := Finset.card_pos.2 hne
      have hguard : ¬(maxDepth ≤ depth ∨ issue.iid ∈ visited) := by
        rintro (h | h)
        · omega
        · exact hnv h
      have hmemd : issue.iid ∈ U \ visited.toFinset :=
        Finset.mem_sdiff.2 ⟨hU, fun h => hnv (List.mem_toFinset.1 h)⟩
      have hsub : visited.toFinset ⊆ (visited ++ [issue.iid]).toFinset := by
        rw [List.toFinset_append]
        exact Finset.subset_union_left
      have hnotin₁ : issue.iid ∉ U \ (visited ++ [issue.iid]).toFinset := by
        intro h
        refine (Finset.mem_sdiff.1 h).2 ?_
        rw [List.toFinset_append]
        exact Finset.mem_union_right _ (by simp)
      have hss : U \ (visited ++ [issue.iid]).toFinset ⊂ U \ visited.toFinset :=
        (Finset.ssubset_iff_of_subset
          (Finset.sdiff_subset_sdiff (Finset.Subset.refl U) hsub)).2
          ⟨issue.iid, hmemd, hnotin₁⟩
      have hlt := Finset.card_lt_card hss
      have hcard₁ :
          (depth + 1) + (U \ (visited ++ [issue.iid]).toFinset).card ≤ maxDepth := by
        omega
      have hch := spiderChildren_preorder
        (fun li vis => spiderGo env fuel li vis root (depth + 1) maxDepth)
        env issue.project_id root U maxDepth depth hc hu
        (fun li vis hU' hnv' hcard' =>
          ⟨(ih li vis (depth + 1) hU' hnv' hcard' (by omega)).1,
           (ih li vis (depth + 1) hU' hnv' hcard' (by omega)).2.1,
           (ih li vis (depth + 1) hU' hnv' hcard' (by omega)).2.2⟩)
        (extractLinkedIssueIds env issue) (visited ++ [issue.iid]) hcard₁
      obtain ⟨h1, h2, h3⟩ := hch
      simp only [spiderGo, if_neg hguard, allIids]
      refine ⟨?_, ?_, ?_⟩
      · rw [h1, List.append_assoc]
        rfl
      · rw [List.nodup_cons]
        refine ⟨fun hmem => ?_, h2⟩
        exact (h3 issue.iid hmem).1 (List.mem_append_right _ (by simp))
      · intro x hx
        rcases List.mem_cons.1 hx with rfl | hx
        · exact ⟨hnv, hU⟩
        · obtain ⟨hxv, hxU⟩ := h3 x hx
          exact ⟨fun hmem => hxv (List.mem_append_left _ hmem), hxU⟩

/-- A graph on which the depth bound duplicates a node: the root
references a five-long chain ending at issue 6 and also issue 7, and
both issue 5 (at depth four) and issue 7 reference issue 6. -/
def c1Env : Env := listEnv
  [⟨1, 1, "#2 #7"⟩, ⟨1, 2, "#3"⟩, ⟨1, 3, "#4"⟩, ⟨1, 4, "#5"⟩,
   ⟨1, 5, "#6"⟩, ⟨1, 6, "#12"⟩, ⟨1, 7, "#6"⟩] []

/-- C1 counterexample: spidering root 1 of c1Env with the default bound
5 reaches issue 5 and issue 7, two different issues that both reference
issue 6, yet iid 6 appears twice in the returned tree. Issue 6 is first
reached at depth 5, where the depth-bound branch returns it as a leaf
without adding it to the visited set, so the later branch through
issue 7 expands it a second time. -/
theorem c1_counterexample :
    6 ∈ extractLinkedIssueIds c1Env ⟨1, 5, "#6"⟩ ∧
    6 ∈ extractLinkedIssueIds c1Env ⟨1, 7, "#6"⟩ ∧
    (⟨1, 5, "#6"⟩ : Issue) ≠ ⟨1, 7, "#6"⟩ ∧
    (allIids (spiderLinkedIssues c1Env ⟨1, 1, "#2 #7"⟩ 5)).count 6 = 2 := by
  refine ⟨by decide, by decide, by decide, by decide⟩

/-- Two branches referencing one issue, all within the depth bound: the
root references issues 2 and 3, and each of those references issue 4. -/
def diamondEnv : Env := listEnv
  [⟨1, 1, "#2 #3"⟩, ⟨1, 2, "#4"⟩, ⟨1, 3, "#4"⟩, ⟨1, 4, "done"⟩] []

/-- A listEnv oracle only ever delivers iids drawn from its issue
table. -/
theorem listEnv_range (issues : List Issue) (notes : List (Nat × List String))
    (U : Finset Nat) (hall : ∀ iss ∈ issues, iss.iid ∈ U) :
    ∀ p i iss, (listEnv issues notes).fetchIssue p i = .ok iss → i ∈ U := by
  intro p i iss h
  simp only [listEnv] at h
  rcases hf : issues.find? (fun x => x.project_id = p ∧ x.iid = i) with _ | found
  · rw [hf] at h
    cases h
  · rw [hf] at h
    cases h
    have hmem := List.mem_of_find?_eq_some hf
    have hpred := List.find?_some hf
    simp only [decide_eq_true_eq] at hpred
    rw [← hpred.2]
    exact hall _ hmem

/-- C1 amended: when no node is cut off by the depth bound — it suffices
that maxDepth is at least the number of distinct iids the oracle can
deliver — every iid occurs at most once in the whole returned tree, so a
second reference to an already-visited issue is never re-expanded and
never re-appears; on the two-producer diamond graph, the shared issue 4
appears exactly once. Without that proviso the depth bound can
duplicate a node, as c1_counterexample shows. -/
theorem c1_amended_visited_shared_across_branches :
    (∀ (env : Env) (U : Finset Nat) (issue : Issue) (maxDepth : Nat),
      FetchConsistent env →
      (∀ p i iss, env.fetchIssue p i = .ok iss → i ∈ U) →
      issue.iid ∈ U → U.card ≤ maxDepth →
      (allIids (spiderLinkedIssues env issue maxDepth)).Nodup) ∧
    4 ∈ extractLinkedIssueIds diamondEnv ⟨1, 2, "#4"⟩ ∧
    4 ∈ extractLinkedIssueIds diamondEnv ⟨1, 3, "#4"⟩ ∧
    (allIids (spiderLinkedIssues diamondEnv ⟨1, 1, "#2 #3"⟩ 5)).count 4 = 1 := by
  refine ⟨?_, by decide, by decide, by decide⟩
  intro env U issue maxDepth hc hu hU hcard
  have h := spiderGo_preorder env hc U hu issue.iid maxDepth maxDepth issue [] 0
    hU (by simp) (by simpa using hcard) (by omega)
  exact h.2.1

/-- Witness for c1_amended_visited_shared_across_branches: the diamond
graph under the universe of its four iids and the default bound 5. -/
theorem c1_witness :
    (allIids (spiderLinkedIssues diamondEnv ⟨1, 1, "#2 #3"⟩ 5)).Nodup :=
  c1_amended_visited_shared_across_branches.1 diamondEnv {1, 2, 3, 4}
    ⟨1, 1, "#2 #3"⟩ 5 (listEnv_consistent _ _)
    (listEnv_range _ _ _ (by decide)) (by decide) (by decide)

/-! Failure tolerance of the spider. -/

theorem spiderChildren_allFail (f : Issue → List Nat → SpiderTree × List Nat)
    (env : Env) (proj root : Nat)
    (hfail : ∀ p i, env.fetchIssue p i = .error ()) :
    ∀ (ids vis : List Nat),
      spiderChildren f env proj root ids vis = (.nil, vis) := by
  intro ids
  induction ids with
  | nil => intro vis; rfl
  | cons linkedId rest ih =>
      intro vis
      by_cases hskip : linkedId = root ∨ linkedId ∈ vis
      · rw [spiderChildren, if_pos hskip]
        exact ih vis
      · rw [spiderChildren, if_neg hskip, hfail proj linkedId]
        exact ih vis

/-- A graph in which the root references issues 2, 3 and 4, and fetching
issue 3 fails (it is absent from the table). -/
def failSiblingEnv : Env := listEnv
  [⟨1, 1, "#2 #3 #4"⟩, ⟨1, 2, "two"⟩, ⟨1, 4, "four"⟩] []

/-- C8: a fetch failure for one linked id does not abort its siblings —
in failSiblingEnv the failing middle reference 3 is omitted while both 2
and the later sibling 4 are still expanded; when the notes fetch fails,
extraction still returns exactly the description's references; and when
every issue fetch fails, the spider still returns a node for the issue
it was given, with an empty children list, instead of propagating the
failure. -/
theorem c8_failures_skip_not_abort :
    spiderLinkedIssues failSiblingEnv ⟨1, 1, "#2 #3 #4"⟩ 5
      = .node ⟨1, 1, "#2 #3 #4"⟩
          (.cons (.node ⟨1, 2, "two"⟩ .nil)
            (.cons (.node ⟨1, 4, "four"⟩ .nil) .nil)) ∧
    (∀ (env : Env) (issue : Issue),
      env.fetchNotes issue.project_id issue.iid = .error () →
      ∀ x, x ∈ extractLinkedIssueIds env issue ↔
        (x ∈ hashMatches issue.description ∧ x ≠ 0 ∧ x ≠ issue.iid)) ∧
    (∀ env : Env, (∀ p i, env.fetchIssue p i = .error ()) →
      ∀ (fuel : Nat) (issue : Issue) (visited : List Nat)
        (root depth maxDepth : Nat),
        (spiderGo env fuel issue visited root depth maxDepth).1
          = .node issue .nil) := by
  refine ⟨by rfl, ?_, ?_⟩
  · intro env issue hn x
    simp only [extractLinkedIssueIds, descriptionLinkedIds, hn]
    rw [mem_addIds]
    constructor
    · rintro (hy | ⟨hm, hx0, hxi⟩)
      · simp at hy
      · exact ⟨hm, hx0, hxi⟩
    · rintro ⟨hm, hx0, hxi⟩
      exact Or.inr ⟨hm, hx0, hxi⟩
  · intro env hfail fuel issue visited root depth maxDepth
    cases fuel with
    | zero => rfl
    | succ fuel =>
        by_cases hguard : maxDepth ≤ depth ∨ issue.iid ∈ visited
        · simp [spiderGo, if_pos hguard]
        · simp only [spiderGo, if_neg hguard,
            spiderChildren_allFail _ env issue.project_id root hfail]

/-- An oracle on which every upstream call fails. -/
def allFailEnv : Env := ⟨fun _ _ => .error (), fun _ _ => .error ()⟩

/-- Witness for c8_failures_skip_not_abort: with every upstream call
failing, spidering still returns the root with no children, and the
failing notes fetch leaves exactly the description reference. -/
theorem c8_witness :
    (spiderGo allFailEnv 5 ⟨1, 1, "#3"⟩ [] 1 0 5).1 = .node ⟨1, 1, "#3"⟩ .nil ∧
    (3 ∈ extractLinkedIssueIds allFailEnv ⟨1, 1, "#3"⟩ ↔
      (3 ∈ hashMatches "#3" ∧ 3 ≠ 0 ∧ 3 ≠ 1)) :=
  ⟨c8_failures_skip_not_abort.2.2 allFailEnv (fun _ _ => rfl) 5 ⟨1, 1, "#3"⟩ []
      1 0 5,
   c8_failures_skip_not_abort.2.1 allFailEnv ⟨1, 1, "#3"⟩ rfl 3⟩

/-! Which project a child is fetched from, and iid conflation. -/

theorem spiderGo_issue_eq (env : Env) :
    ∀ (fuel : Nat) (issue : Issue) (visited : List Nat)
      (root depth maxDepth : Nat),
      (spiderGo env fuel issue visited root depth maxDepth).1.issue = issue := by
  intro fuel issue visited root depth maxDepth
  cases fuel with
  | zero => rfl
  | succ fuel =>
      by_cases hguard : maxDepth ≤ depth ∨ issue.iid ∈ visited
      · simp [spiderGo, if_pos hguard, SpiderTree.issue]
      · simp [spiderGo, if_neg hguard, SpiderTree.issue]

theorem spiderChildren_fetchedFrom (f : Issue → List Nat → SpiderTree × List Nat)
    (env : Env) (parent : Issue) (root : Nat)
    (hf : ∀ li vis, (f li vis).1.issue = li ∧
      fetchedFromReferencing env (f li vis).1) :
    ∀ (ids vis : List Nat),
      (∀ lid, lid ∈ ids → lid ∈ extractLinkedIssueIds env parent) →
      forestFetchedFrom env parent
        (spiderChildren f env parent.project_id root ids vis).1 := by
  intro ids
  induction ids with
  | nil =>
      intro vis hids
      simp [spiderChildren, forestFetchedFrom]
  | cons linkedId rest ih =>
      intro vis hids
      have hrest : ∀ lid, lid ∈ rest → lid ∈ extractLinkedIssueIds env parent :=
        fun lid h => hids lid (List.mem_cons_of_mem _ h)
      by_cases hskip : linkedId = root ∨ linkedId ∈ vis
      · rw [spiderChildren, if_pos hskip]
        exact ih vis hrest
      · rcases hfetch : env.fetchIssue parent.project_id linkedId with _ | li
        · rw [spiderChildren, if_neg hskip, hfetch]
          exact ih vis hrest
        · simp only [spiderChildren, if_neg hskip, hfetch, forestFetchedFrom]
          obtain ⟨hissue, hrec⟩ := hf li vis
          refine ⟨⟨linkedId, hids linkedId (List.mem_cons_self _ _), ?_⟩, hrec, ih _ hrest⟩
          rw [hissue]
          exact hfetch

theorem spiderGo_fetchedFrom (env : Env) :
    ∀ (fuel : Nat) (issue : Issue) (visited : List Nat)
      (root depth maxDepth : Nat),
      fetchedFromReferencing env
        (spiderGo env fuel issue visited root depth maxDepth).1 := by
  intro fuel
  induction fuel with
  | zero =>
      intro issue visited root depth maxDepth
      simp [spiderGo, fetchedFromReferencing, forestFetchedFrom]
  | succ fuel ih =>
      intro issue visited root depth maxDepth
      by_cases hguard : maxDepth ≤ depth ∨ issue.iid ∈ visited
      · simp [spiderGo, if_pos hguard, fetchedFromReferencing, forestFetchedFrom]
      · simp only [spiderGo, if_neg hguard, fetchedFromReferencing]
        exact spiderChildren_fetchedFrom
          (fun li vis => spiderGo env fuel li vis root (depth + 1) maxDepth)
          env issue root
          (fun li vis => ⟨spiderGo_issue_eq env fuel li vis root (depth + 1) maxDepth,
            ih li vis root (depth + 1) maxDepth⟩)
          (extractLinkedIssueIds env issue) (visited ++ [issue.iid])
          (fun lid h => h)

/-- Two distinct issues in different projects share iid 7: issue 2 was
moved to project 2 and references number 7 there, while issue 3 in
project 1 references project 1's own issue 7. -/
def crossEnv : Env :=
  ⟨fun p i =>
      if p = 1 ∧ i = 1 then .ok ⟨1, 1, "#2 #3"⟩
      else if p = 1 ∧ i = 2 then .ok ⟨2, 2, "#7"⟩
      else if p = 2 ∧ i = 7 then .ok ⟨2, 7, "fixed"⟩
      else if p = 1 ∧ i = 7 then .ok ⟨1, 7, "#9"⟩
      else if p = 1 ∧ i = 3 then .ok ⟨1, 3, "#7"⟩
      else if p = 1 ∧ i = 9 then .ok ⟨1, 9, "nine"⟩
      else .error (),
   fun _ _ => .ok []⟩

/-- C10: every non-root node of a spidered tree was fetched from the
project of the issue that referenced it, and the visited set is keyed by
bare iid: in crossEnv the branch through issue 2 fetches (2, 7) — the
referencing issue's project — and after it is visited, issue 3's
reference to number 7, which would fetch the distinct issue (1, 7), is
skipped, so (1, 7) never appears, its own reference 9 is never explored,
and iid 7 occurs exactly once. -/
theorem c10_visited_keyed_by_bare_iid :
    (∀ (env : Env) (issue : Issue) (maxDepth : Nat),
      fetchedFromReferencing env (spiderLinkedIssues env issue maxDepth)) ∧
    crossEnv.fetchIssue 2 7 = .ok ⟨2, 7, "fixed"⟩ ∧
    crossEnv.fetchIssue 1 7 = .ok ⟨1, 7, "#9"⟩ ∧
    (⟨2, 7, "fixed"⟩ : Issue) ≠ ⟨1, 7, "#9"⟩ ∧
    spiderLinkedIssues crossEnv ⟨1, 1, "#2 #3"⟩ 5
      = .node ⟨1, 1, "#2 #3"⟩
          (.cons (.node ⟨2, 2, "#7"⟩
            (.cons (.node ⟨2, 7, "fixed"⟩ .nil) .nil))
            (.cons (.node ⟨1, 3, "#7"⟩ .nil) .nil)) ∧
    7 ∈ extractLinkedIssueIds crossEnv ⟨1, 3, "#7"⟩ ∧
    (⟨1, 7, "#9"⟩ : Issue)
      ∉ allIssues (spiderLinkedIssues crossEnv ⟨1, 1, "#2 #3"⟩ 5) ∧
    9 ∉ allIids (spiderLinkedIssues crossEnv ⟨1, 1, "#2 #3"⟩ 5) ∧
    (allIids (spiderLinkedIssues crossEnv ⟨1, 1, "#2 #3"⟩ 5)).count 7 = 1 := by
  refine ⟨?_, by rfl, by rfl, by decide, by rfl, by decide, by decide, by decide,
    by decide⟩
  intro env issue maxDepth
  exact spiderGo_fetchedFrom env maxDepth issue [] issue.iid 0 maxDepth

end BugEmporium
